import Mathlib

/-!
Verification development for the svelte-check-server repository (Go).

The Go sources in `internal/` are shallowly embedded below: text is
`List Char`, Go `int`/`int64` are `Int` (with explicit int64 clamping where
the stdlib clamps), fallible parses return `Option`.  Each definition is a
direct translation of the corresponding Go function; small models of the Go
standard-library helpers the code calls (`strings.TrimSpace`,
`strings.Fields`, `strconv.Atoi`, `path/filepath.Clean`, `filepath.Base`)
are included and named with a `go` marker.
-/

/-- Text as a list of characters (a Go `string` restricted to its runes). -/
abbrev Str := List Char

/-! ## Models of Go standard-library string helpers -/

/-- Model of `strings.HasPrefix`. -/
def goHasPfx : Str → Str → Bool
  | [], _ => true
  | _ :: _, [] => false
  | c :: p, d :: s => c == d && goHasPfx p s

/-- Model of `strings.CutPrefix`: `some` of the remainder when the prefix
matches, `none` otherwise. -/
def goCutPfx (p s : Str) : Option Str :=
  if goHasPfx p s then some (s.drop p.length) else none

/-- Model of `strings.TrimPrefix`. -/
def goTrimPfx (p s : Str) : Str :=
  if goHasPfx p s then s.drop p.length else s

/-- Model of `strings.Trim` with a one-character cutset: remove every
leading and trailing occurrence of `cut`. -/
def goTrimChar (cut : Char) (s : Str) : Str :=
  ((s.dropWhile (fun c => c == cut)).reverse.dropWhile (fun c => c == cut)).reverse

/-- The ASCII white-space characters recognised by `unicode.IsSpace`
(the protocol and HEAD files are ASCII, so the non-ASCII space runes are
irrelevant). -/
def isGoSpace (c : Char) : Bool :=
  c == ' ' || c == '\t' || c == '\n' || c == '\x0b' || c == '\x0c' || c == '\r'

/-- Model of `strings.TrimSpace`: trim white space from both ends. -/
def goTrimSpace (s : Str) : Str :=
  ((s.dropWhile isGoSpace).reverse.dropWhile isGoSpace).reverse

/-- Model of `strings.Cut` at the first occurrence of a separator
character: `some (before, after)` when the separator occurs. -/
def goCutChar (sep : Char) : Str → Option (Str × Str)
  | [] => none
  | c :: t =>
    if c == sep then some ([], t)
    else (goCutChar sep t).map (fun p => (c :: p.1, p.2))

/-- Split a string at every separator character, keeping (possibly empty)
groups; the groups carry no separator characters.  Shared backbone of the
models of `strings.Fields` and of the component split of `filepath.Clean`. -/
def splitBy (sep : Char → Bool) : Str → List Str
  | [] => [[]]
  | c :: rest =>
    if sep c then [] :: splitBy sep rest
    else
      match splitBy sep rest with
      | [] => [[c]]
      | g :: gs => (c :: g) :: gs

/-- The nonempty groups between separators. -/
def tokensBy (sep : Char → Bool) (s : Str) : List Str :=
  (splitBy sep s).filter (fun g => !g.isEmpty)

/-- Model of `strings.Fields`: the white-space-separated tokens. -/
def goFields (s : Str) : List Str := tokensBy isGoSpace s

/-- Go int64 maximum. -/
def int64Max : Int := 9223372036854775807

/-- Go int64 minimum. -/
def int64Min : Int := -9223372036854775808

/-- Does `s` have the syntax `strconv.ParseInt(s, 10, _)` accepts:
an optional sign followed by at least one decimal digit? -/
def intSyntax (s : Str) : Bool :=
  match s with
  | [] => false
  | c :: t =>
    if c = '+' ∨ c = '-' then !t.isEmpty && t.all Char.isDigit
    else (c :: t).all Char.isDigit

/-- Numeric value of a digit string. -/
def digitsVal (s : Str) : Int :=
  s.foldl (fun n c => n * 10 + ((c.toNat : Int) - 48)) 0

/-- Signed numeric value of a string with `intSyntax`. -/
def intVal (s : Str) : Int :=
  match s with
  | [] => 0
  | c :: t =>
    if c = '+' then digitsVal t
    else if c = '-' then - digitsVal t
    else digitsVal (c :: t)

/-- Clamp to the int64 range, as `strconv.ParseInt` does on range error. -/
def clampInt64 (v : Int) : Int :=
  if v > int64Max then int64Max else if v < int64Min then int64Min else v

/-- Model of `strconv.ParseInt(s, 10, 64)`: `none` on a syntax or range
error (the callers in `interpreter.go` skip the line on error). -/
def goParseInt64 (s : Str) : Option Int :=
  if intSyntax s = true ∧ int64Min ≤ intVal s ∧ intVal s ≤ int64Max then some (intVal s)
  else none

/-- Model of `strconv.Atoi` on a 64-bit platform with the error ignored,
as `parseCompletedLine` calls it: `0` on a syntax error, the int64-clamped
value on a range error, the value otherwise. -/
def goAtoi (s : Str) : Int :=
  if intSyntax s = true then clampInt64 (intVal s) else 0

/-! ## Model of `path/filepath.Clean` / `Abs` / `Join` (Unix rules)

`resolveStep` is the per-component action of the lazybuf loop in Go's
`filepath.Clean`: `.` is dropped; `..` pops the previous component when one
is poppable (for a rooted path the root absorbs excess `..`; for a relative
path excess `..` accumulates at the front); anything else is kept. -/

/-- Is the path rooted (`filepath.IsAbs` on Unix)? -/
def isAbsPath (p : Str) : Bool := p.head? == some '/'

/-- One step of `filepath.Clean`'s component resolution. -/
def resolveStep (rooted : Bool) (acc : List Str) (c : Str) : List Str :=
  if c = ['.'] then acc
  else if c = ['.', '.'] then
    if rooted then acc.dropLast
    else
      match acc.getLast? with
      | some l => if l = ['.', '.'] then acc ++ [c] else acc.dropLast
      | none => acc ++ [c]
  else acc ++ [c]

/-- Resolve all components of a path, in order. -/
def resolveComps (rooted : Bool) (cs : List Str) : List Str :=
  cs.foldl (resolveStep rooted) []

/-- The nonempty `/`-separated components of a path. -/
def comps (p : Str) : List Str := tokensBy (fun c => c == '/') p

/-- Join components with `/`. -/
def joinSep : List Str → Str
  | [] => []
  | [g] => g
  | g :: gs => g ++ '/' :: joinSep gs

/-- Model of `filepath.Clean` for Unix paths: shortest lexical equivalent,
`.` for an empty relative result, rooted results keep the leading `/`. -/
def cleanPath (p : Str) : Str :=
  if isAbsPath p then '/' :: joinSep (resolveComps true (comps p))
  else
    let rs := resolveComps false (comps p)
    if rs = [] then ['.'] else joinSep rs

/-- Model of `filepath.Abs`: an absolute path is cleaned; a relative path
is joined onto the working directory `cwd` and cleaned. -/
def goAbs (cwd p : Str) : Str :=
  if isAbsPath p then cleanPath p else cleanPath (cwd ++ '/' :: p)

/-- Model of `filepath.Join` on two nonempty parts. -/
def goJoin2 (a b : Str) : Str := cleanPath (a ++ '/' :: b)

/-! ## Socket-path derivation (`SocketPathForWorkspace`) -/

/-- Value of `os.TempDir()` in the deployment the code documents (`/tmp`). -/
def tmpDir : Str := "/tmp".toList

/-- The fixed socket-name suffix. -/
def sockSfx : Str := "-svelte-check.sock".toList

/-- Model of `strings.TrimPrefix(absPath, string(os.PathSeparator))`. -/
def trimLeadSlash : Str → Str
  | '/' :: t => t
  | p => p

/-- Model of `strings.ReplaceAll(slug, "/", "-")`. -/
def mapDash (s : Str) : Str := s.map (fun c => if c = '/' then '-' else c)

/-- Model of `SocketPathForWorkspace`: make the workspace path absolute,
clean it, strip the leading separator, replace separators by dashes, and
place the suffixed slug under the temp directory. -/
def SocketPathForWorkspace (cwd p : Str) : Str :=
  let absPath := goAbs cwd p
  let absPath2 := cleanPath absPath
  let slug := mapDash (trimLeadSlash absPath2)
  goJoin2 tmpDir (slug ++ sockSfx)

/-- A path that is absolute and fixed by `filepath.Clean` (the "normalized
absolute" paths the spec quantifies over). -/
def isCleanAbs (p : Str) : Prop := isAbsPath p = true ∧ cleanPath p = p

instance (p : Str) : Decidable (isCleanAbs p) := by unfold isCleanAbs; infer_instance

/-! ## Git HEAD parsing (`parseGitHeadRef`) -/

/-- The literal marker at the front of a symbolic-ref HEAD file. -/
def refMarker : Str := "ref: ".toList

/-- Model of `parseGitHeadRef`: trim white space from both ends; if the
result starts with `ref: ` return the remainder, else return empty. -/
def parseGitHeadRef (content : Str) : Str :=
  let line := goTrimSpace content
  if !goHasPfx refMarker line then [] else goTrimPfx refMarker line

/-- Trimming of trailing white space only — the operation the spec sentence
for the HEAD parser names (the code trims both ends). -/
def specTrimTrailing (s : Str) : Str :=
  (s.reverse.dropWhile isGoSpace).reverse

/-! ## Diagnostic interpreter data model (`interpreter.go`) -/

/-- A location in a file (zero-based in the wire format). -/
structure DiagPosition where
  line : Int
  character : Int
deriving DecidableEq

/-- The polymorphic `code` field of a diagnostic: numeric for type-system
errors, symbolic for higher-level lints. -/
inductive DiagCode where
  | num (n : Int)
  | sym (s : Str)
  | absent
deriving DecidableEq

/-- A single error or warning from svelte-check (`Diagnostic`).  The `End`
field of the Go struct is named `endPos` because `end` is reserved. -/
structure Diagnostic where
  timestamp : Int
  type : Str
  filename : Str
  start : DiagPosition
  endPos : DiagPosition
  message : Str
  code : DiagCode
  source : Str
deriving DecidableEq

/-- The snapshot of one completed check cycle (`SvelteWatchCheckComplete`). -/
structure SvelteWatchCheckComplete where
  timestamp : Int
  diagnostics : List Diagnostic
  fileCount : Int
  errorCount : Int
  warningCount : Int
  filesWithProblems : Int
deriving DecidableEq

/-- The event sum type produced by the interpreter (`SvelteCheckEvent`). -/
inductive SvelteCheckEvent where
  | start (timestamp : Int) (workspace : Str)
  | complete (c : SvelteWatchCheckComplete)
  | failure (timestamp : Int) (message : Str)
deriving DecidableEq

/-- Model of `parseTimestampPrefix`: cut at the first space and parse the
front as a base-10 int64; `none` skips the line. -/
def parseTimestampPfx (line : Str) : Option (Int × Str) :=
  match goCutChar ' ' line with
  | none => none
  | some (before, after) => (goParseInt64 before).map (fun ts => (ts, after))

/-- Model of `parseCompletedLine`: split into white-space fields and, when
at least nine are present, `Atoi` fields 1, 3, 5 and 7 with errors ignored;
otherwise every count is zero. -/
def parseCompletedLine (rest : Str) : Int × Int × Int × Int :=
  let parts := goFields rest
  if 9 ≤ parts.length then
    (goAtoi (parts.getD 1 []), goAtoi (parts.getD 3 []),
     goAtoi (parts.getD 5 []), goAtoi (parts.getD 7 []))
  else (0, 0, 0, 0)

/-- The `START ` production marker. -/
def startTok : Str := "START ".toList

/-- The `COMPLETED ` production marker. -/
def completedTok : Str := "COMPLETED ".toList

/-- The `FAILURE ` production marker. -/
def failureTok : Str := "FAILURE ".toList

/-- What one line of input makes `InterpretOutput`'s loop body do. -/
inductive LineKind where
  | skip
  | startLn (ts : Int) (ws : Str)
  | completedLn (fileCount errorCount warningCount filesWithProblems : Int) (ts : Int)
  | failureLn (ts : Int) (msg : Str)
  | diagLn (d : Diagnostic)
deriving DecidableEq

/-- The per-line decision tree of `InterpretOutput`, verbatim from the loop
body: blank and `#` lines are skipped, a missing timestamp skips the line,
then the `START `/`COMPLETED `/`FAILURE `/`{` productions are tried in
order; a JSON diagnostic gets the outer timestamp attached, and a JSON
parse failure is silently dropped.  `decode` stands for
`encoding/json.Unmarshal` into `Diagnostic`, which is outside the
repository. -/
def classifyLine (decode : Str → Option Diagnostic) (line : Str) : LineKind :=
  if line = [] ∨ line.head? = some '#' then .skip
  else
    match parseTimestampPfx line with
    | none => .skip
    | some (ts, rest) =>
      match goCutPfx startTok rest with
      | some after => .startLn ts (goTrimChar '"' after)
      | none =>
        if goHasPfx completedTok rest then
          match parseCompletedLine rest with
          | (fc, ec, wc, fwp) => .completedLn fc ec wc fwp ts
        else
          match goCutPfx failureTok rest with
          | some after => .failureLn ts (goTrimChar '"' after)
          | none =>
            if rest.head? = some '{' then
              match decode rest with
              | some d => .diagLn { d with timestamp := ts }
              | none => .skip
            else .skip

/-- The interpreter loop over the remaining lines, carrying the per-cycle
diagnostics accumulator: `START` resets it and emits a start event,
`COMPLETED` snapshots it into the complete event and resets it, `FAILURE`
emits without touching it, a diagnostic line appends to it. -/
def interpretLines (decode : Str → Option Diagnostic) :
    List Str → List Diagnostic → List SvelteCheckEvent
  | [], _ => []
  | line :: lines, diags =>
    match classifyLine decode line with
    | .skip => interpretLines decode lines diags
    | .startLn ts ws => .start ts ws :: interpretLines decode lines []
    | .completedLn fc ec wc fwp ts =>
        .complete ⟨ts, diags, fc, ec, wc, fwp⟩ :: interpretLines decode lines []
    | .failureLn ts m => .failure ts m :: interpretLines decode lines diags
    | .diagLn d => interpretLines decode lines (diags ++ [d])

/-- Model of `InterpretOutput`: the event stream produced from the input
lines, starting from an empty accumulator. -/
def InterpretOutput (decode : Str → Option Diagnostic) (lines : List Str) :
    List SvelteCheckEvent :=
  interpretLines decode lines []

/-- The diagnostics contributed by a list of lines, in line order. -/
def cycleDiags (decode : Str → Option Diagnostic) (body : List Str) : List Diagnostic :=
  body.filterMap (fun l =>
    match classifyLine decode l with
    | .diagLn d => some d
    | _ => none)

/-- The failure events contributed by a list of lines, in line order. -/
def cycleFailures (decode : Str → Option Diagnostic) (body : List Str) :
    List SvelteCheckEvent :=
  body.filterMap (fun l =>
    match classifyLine decode l with
    | .failureLn ts m => some (.failure ts m)
    | _ => none)

/-! ## Output formatting (`FormatHuman`) -/

/-- Decimal rendering of a Go `int` (`fmt.Sprintf("%d", _)`). -/
def intStr (n : Int) : Str := (toString n).toList

/-- One human-readable diagnostic line, verbatim from the `Sprintf` in
`FormatHuman`: `filename:line:char - TYPE: message` with the zero-based
positions converted to one-based. -/
def diagLine (d : Diagnostic) : Str :=
  d.filename ++ ":".toList ++ intStr (d.start.line + 1) ++ ":".toList ++
    intStr (d.start.character + 1) ++ " - ".toList ++ d.type ++ ": ".toList ++
    d.message ++ "\n".toList

/-- Model of `FormatHuman`: the no-issues single line when there are no
diagnostics, else one line per diagnostic accumulated in order followed by
a blank line and the summary line. -/
def FormatHuman (event : SvelteWatchCheckComplete) : Str :=
  if event.diagnostics.length = 0 then
    "svelte-check found no issues (".toList ++ intStr event.fileCount ++
      " files checked)\n".toList
  else
    (event.diagnostics.foldl (fun sb d => sb ++ diagLine d) []) ++
      "\nsvelte-check: ".toList ++ intStr event.errorCount ++ " errors, ".toList ++
      intStr event.warningCount ++ " warnings (".toList ++ intStr event.fileCount ++
      " files checked)\n".toList

/-- The human rendering as §4.8 of the spec words it: one line per
diagnostic in insertion order, then a blank line and a one-line summary;
a snapshot with zero diagnostics renders as the single no-issues line. -/
def humanRenderingSpec (event : SvelteWatchCheckComplete) : Str :=
  if event.diagnostics = [] then
    "svelte-check found no issues (".toList ++ intStr event.fileCount ++
      " files checked)\n".toList
  else
    (event.diagnostics.map diagLine).flatten ++ "\n".toList ++
      "svelte-check: ".toList ++ intStr event.errorCount ++ " errors, ".toList ++
      intStr event.warningCount ++ " warnings (".toList ++ intStr event.fileCount ++
      " files checked)\n".toList

/-! ## Runner event consumer (`Runner.handleEvents`) and snapshot cell

The snapshot cell (`signal.Signal`, an external dependency) is modelled by
its observable state: `none` while invalidated (readers block), `some v`
once `Set v` has been called (readers return `v`). -/

/-- One step of `Runner.handleEvents`: `CheckStart` invalidates the cell,
`CheckComplete` sets it, `Failure` only logs. -/
def runnerStep (snapshot : Option SvelteWatchCheckComplete) (e : SvelteCheckEvent) :
    Option SvelteWatchCheckComplete :=
  match e with
  | .start _ _ => none
  | .complete c => some c
  | .failure _ _ => snapshot

/-- Model of `Runner.handleEvents`: consume the event stream in order, updating the
snapshot cell. -/
def handleEvents (snapshot : Option SvelteWatchCheckComplete)
    (events : List SvelteCheckEvent) : Option SvelteWatchCheckComplete :=
  events.foldl runnerStep snapshot

/-- The last cycle-boundary event (start or complete) of a stream, if any —
failure events are not boundaries. -/
def lastBoundary : List SvelteCheckEvent → Option SvelteCheckEvent
  | [] => none
  | e :: t =>
    match lastBoundary t with
    | some b => some b
    | none =>
      match e with
      | .failure _ _ => none
      | b => some b

/-- The snapshot state the spec calls for: the most recent *complete* cycle
(`some` of the last complete event), `none` while the last boundary is a
start, and the initial state when no boundary occurred; failures never
contribute. -/
def latestSnapshotSpec (s0 : Option SvelteWatchCheckComplete)
    (events : List SvelteCheckEvent) : Option SvelteWatchCheckComplete :=
  match lastBoundary events with
  | some (.complete c) => some c
  | some _ => none
  | none => s0

/-! ## Request server (`Server.handleCheck`) -/

/-- The body the `/check` handler writes: either the JSON encoding of the
snapshot (serialisation by `encoding/json`, outside the repository, kept
symbolic) or the human rendering. -/
inductive RespBody where
  | jsonBody (e : SvelteWatchCheckComplete)
  | humanBody (s : Str)
deriving DecidableEq

/-- Model of `Server.handleCheck` applied to the snapshot returned by
`runner.GetLatestEvent()`: an empty `?format=` query defaults to `human`;
the 500 header is written exactly when `ErrorCount > 0`, otherwise the
first body write sends the implicit 200; `format=json` selects the JSON
encoder, anything else the human rendering. -/
def handleCheck (event : SvelteWatchCheckComplete) (formatQuery : Str) : Nat × RespBody :=
  let fmt := if formatQuery = [] then "human".toList else formatQuery
  let status := if 0 < event.errorCount then 500 else 200
  (status, if fmt = "json".toList then .jsonBody event else .humanBody (FormatHuman event))

/-! ## Watcher: route files and the sync trigger (`Watcher.Start`) -/

/-- Model of `strings.TrimRight(path, "/")` as `filepath.Base` performs it. -/
def trimTrailSlashes (p : Str) : Str :=
  (p.reverse.dropWhile (fun c => c == '/')).reverse

/-- Everything after the last `/`. -/
def lastComponent (q : Str) : Str :=
  (q.reverse.takeWhile (fun c => c != '/')).reverse

/-- Model of `filepath.Base` (Unix): `.` for the empty path, `/` for a path
of only separators, else the final element with trailing separators
removed. -/
def goBase (p : Str) : Str :=
  if p = [] then ['.']
  else
    let q := trimTrailSlashes p
    if q = [] then ['/'] else lastComponent q

/-- The literal whitelist `svelteKitRouteFiles` from the source. -/
def svelteKitRouteFiles : List Str :=
  ["+page.ts", "+page.js", "+page.server.ts", "+page.server.js",
   "+layout.ts", "+layout.js", "+layout.server.ts", "+layout.server.js",
   "+server.ts", "+server.js"].map String.toList

/-- Model of `isRouteFile`: whitelist lookup of the basename. -/
def isRouteFile (filename : Str) : Bool :=
  svelteKitRouteFiles.contains (goBase filename)

/-- fsnotify op bits (`fsnotify.Op` is a bit set). -/
def fsnotifyCreate : Nat := 1

/-- fsnotify `Write` bit. -/
def fsnotifyWrite : Nat := 2

/-- fsnotify `Remove` bit. -/
def fsnotifyRemove : Nat := 4

/-- fsnotify `Rename` bit. -/
def fsnotifyRename : Nat := 8

/-- fsnotify `Chmod` bit. -/
def fsnotifyChmod : Nat := 16

/-- Model of `fsnotify.Event.Has`: bit-set intersection test. -/
def opHas (o h : Nat) : Bool := o &&& h != 0

/-- The guard in `Watcher.Start`'s FS-event arm deciding
`syncDebouncer.Trigger()`: the event name is a route file and the op has
Create, Remove or Rename. -/
def triggersSync (name : Str) (op : Nat) : Bool :=
  isRouteFile name &&
    (opHas op fsnotifyCreate || opHas op fsnotifyRemove || opHas op fsnotifyRename)

/-! ## Global watcher counter (`acquireWatcher` / `releaseWatcher`)

The counter is a process-wide atomic; in this sequential model the
compare-and-swap of `acquireWatcher`'s loop succeeds on the first
iteration, so the loop collapses to its single effective step. -/

/-- The watcher cap `MaxWatchers`. -/
def MaxWatchers : Int := 100

/-- The watcher-limit error. -/
inductive WatcherErr where
  | tooManyWatchers
deriving DecidableEq

/-- Model of `acquireWatcher` acting on the counter value: fail with
`ErrTooManyWatchers` at or above the limit, else increment. -/
def acquireWatcher (count : Int) : Except WatcherErr Int :=
  if MaxWatchers ≤ count then .error .tooManyWatchers else .ok (count + 1)

/-- Model of `releaseWatcher` (called exactly once per successful creation,
from `Close`): decrement. -/
def releaseWatcher (count : Int) : Int := count - 1

/-- The two operations touching the global counter. -/
inductive WatchOp where
  | acquire
  | release
deriving DecidableEq

/-- Execute a sequence of counter operations; a failed acquire leaves the
counter unchanged. -/
def execOps : Int → List WatchOp → Int
  | c, [] => c
  | c, .acquire :: t =>
    execOps (match acquireWatcher c with | .ok c' => c' | .error _ => c) t
  | c, .release :: t => execOps (releaseWatcher c) t

/-! # Theorems

First a battery of lemmas about the path machinery, then the claim
theorems with their witnesses and counterexamples. -/

theorem splitBy_ne_nil (f : Char → Bool) (p : Str) : splitBy f p ≠ [] := by
  cases p with
  | nil => simp [splitBy]
  | cons c t =>
    simp only [splitBy]
    split
    · simp
    · split <;> simp

theorem splitBy_append_sep (f : Char → Bool) {c : Char} (hc : f c = true) (p : Str) :
    splitBy f (p ++ [c]) = splitBy f p ++ [[]] := by
  induction p with
  | nil => simp [splitBy, hc]
  | cons a t ih =>
    by_cases ha : f a = true
    · simp [splitBy, ha, ih]
    · cases hs : splitBy f t with
      | nil => exact absurd hs (splitBy_ne_nil f t)
      | cons g gs =>
        have ht : splitBy f (t ++ [c]) = g :: (gs ++ [[]]) := by rw [ih, hs]; rfl
        simp [splitBy, ha, ht, hs]

theorem tokensBy_append_sep (f : Char → Bool) {c : Char} (hc : f c = true) (p : Str) :
    tokensBy f (p ++ [c]) = tokensBy f p := by
  simp [tokensBy, splitBy_append_sep f hc, List.filter_append]

theorem comps_append_slash (p : Str) : comps (p ++ ['/']) = comps p :=
  tokensBy_append_sep _ (by decide) p

theorem isAbsPath_append (p q : Str) (hp : p ≠ []) : isAbsPath (p ++ q) = isAbsPath p := by
  cases p with
  | nil => exact absurd rfl hp
  | cons c t => simp [isAbsPath]

theorem cleanPath_append_slash (p : Str) (hp : p ≠ []) :
    cleanPath (p ++ ['/']) = cleanPath p := by
  unfold cleanPath
  rw [comps_append_slash, isAbsPath_append p ['/'] hp]

theorem splitBy_sepfree (f : Char → Bool) (p : Str) (h : ∀ c ∈ p, f c = false) :
    splitBy f p = [p] := by
  induction p with
  | nil => rfl
  | cons a t ih =>
    have ha : f a = false := h a (by simp)
    simp only [splitBy, ha, Bool.false_eq_true, if_false]
    rw [ih (fun c hc => h c (List.mem_cons_of_mem a hc))]

theorem splitBy_append_group (f : Char → Bool) (g rest r : Str) (rs : List Str)
    (hg : ∀ c ∈ g, f c = false) (hr : splitBy f rest = r :: rs) :
    splitBy f (g ++ rest) = (g ++ r) :: rs := by
  induction g with
  | nil => simpa using hr
  | cons a t ih =>
    have ha : f a = false := hg a (by simp)
    have ht := ih (fun c hc => hg c (List.mem_cons_of_mem a hc))
    simp [splitBy, ha, ht]

theorem splitBy_groups_sepfree (f : Char → Bool) (p : Str) :
    ∀ g ∈ splitBy f p, ∀ c ∈ g, f c = false := by
  induction p with
  | nil =>
    intro g hg
    simp [splitBy] at hg
    simp [hg]
  | cons a t ih =>
    intro g hg c hc
    by_cases ha : f a = true
    · simp only [splitBy, ha, if_true] at hg
      rcases List.mem_cons.mp hg with rfl | hg'
      · simp at hc
      · exact ih g hg' c hc
    · simp only [splitBy, ha, Bool.false_eq_true, if_false] at hg
      cases hs : splitBy f t with
      | nil => exact absurd hs (splitBy_ne_nil f t)
      | cons r rs =>
        rw [hs] at hg
        rcases List.mem_cons.mp hg with rfl | hg'
        · rcases List.mem_cons.mp hc with rfl | hc'
          · simpa using ha
          · exact ih r (hs ▸ List.mem_cons_self r rs) c hc'
        · exact ih g (hs ▸ List.mem_cons_of_mem r hg') c hc

theorem comps_mem (p g : Str) (h : g ∈ comps p) :
    g ≠ [] ∧ ∀ c ∈ g, (c == '/') = false := by
  unfold comps tokensBy at h
  have h2 := List.of_mem_filter h
  have h1 := List.mem_of_mem_filter h
  refine ⟨?_, splitBy_groups_sepfree _ p g h1⟩
  intro hg
  subst hg
  simp at h2

theorem splitBy_joinSep (cs : List Str) (h : ∀ g ∈ cs, ∀ c ∈ g, (c == '/') = false)
    (hne : cs ≠ []) :
    splitBy (fun c => c == '/') (joinSep cs) = cs := by
  induction cs with
  | nil => exact absurd rfl hne
  | cons g gs ih =>
    cases gs with
    | nil => exact splitBy_sepfree _ g (h g (by simp))
    | cons g2 gs2 =>
      have hrest : splitBy (fun c => c == '/') (joinSep (g2 :: gs2)) = g2 :: gs2 :=
        ih (fun x hx => h x (List.mem_cons_of_mem g hx)) (by simp)
      have hslash : splitBy (fun c => c == '/') ('/' :: joinSep (g2 :: gs2)) =
          [] :: g2 :: gs2 := by
        simp [splitBy, hrest]
      have := splitBy_append_group (fun c => c == '/') g ('/' :: joinSep (g2 :: gs2))
        [] (g2 :: gs2) (h g (by simp)) hslash
      simpa [joinSep] using this

theorem comps_rooted_join (cs : List Str)
    (h : ∀ g ∈ cs, g ≠ [] ∧ ∀ c ∈ g, (c == '/') = false) :
    comps ('/' :: joinSep cs) = cs := by
  cases cs with
  | nil => simp [comps, tokensBy, joinSep, splitBy]
  | cons g gs =>
    have hs := splitBy_joinSep (g :: gs) (fun x hx => (h x hx).2) (by simp)
    unfold comps tokensBy
    rw [show splitBy (fun c => c == '/') ('/' :: joinSep (g :: gs)) =
        [] :: g :: gs from by simp [splitBy, hs]]
    rw [show ([] :: g :: gs).filter (fun g => !g.isEmpty) =
        (g :: gs).filter (fun g => !g.isEmpty) from by simp]
    rw [List.filter_eq_self.mpr]
    intro a ha
    have := (h a ha).1
    simpa [List.isEmpty_iff] using this

theorem mem_foldl_resolve_true (cs : List Str) (c : Str) :
    ∀ acc, c ∈ cs.foldl (resolveStep true) acc →
      c ∈ acc ∨ (c ∈ cs ∧ c ≠ ['.'] ∧ c ≠ ['.', '.']) := by
  induction cs with
  | nil =>
    intro acc h
    exact .inl h
  | cons x xs ih =>
    intro acc h
    rcases ih (resolveStep true acc x) h with h1 | h2
    · by_cases hx1 : x = ['.']
      · simp only [resolveStep, hx1, if_true] at h1
        exact .inl h1
      · by_cases hx2 : x = ['.', '.']
        · simp only [resolveStep, hx1, hx2, if_true, if_false] at h1
          exact .inl (List.dropLast_subset acc h1)
        · simp only [resolveStep, hx1, hx2, if_false] at h1
          rcases List.mem_append.mp h1 with h | h
          · exact .inl h
          · have hcx : c = x := by simpa using h
            subst hcx
            exact .inr ⟨List.mem_cons_self c xs, hx1, hx2⟩
    · exact .inr ⟨List.mem_cons_of_mem x h2.1, h2.2⟩

theorem foldl_resolve_true_nodots (cs : List Str)
    (h : ∀ g ∈ cs, g ≠ ['.'] ∧ g ≠ ['.', '.']) :
    ∀ acc, cs.foldl (resolveStep true) acc = acc ++ cs := by
  induction cs with
  | nil => intro acc; simp
  | cons x xs ih =>
    intro acc
    have hx := h x (by simp)
    rw [List.foldl_cons,
      show resolveStep true acc x = acc ++ [x] from by simp [resolveStep, hx.1, hx.2],
      ih (fun g hg => h g (List.mem_cons_of_mem x hg)) (acc ++ [x])]
    simp

theorem cleanPath_rooted (p : Str) (hp : isAbsPath p = true) :
    isAbsPath (cleanPath p) = true := by
  unfold cleanPath
  rw [hp]
  simp [isAbsPath]

theorem cleanPath_idem_rooted (p : Str) (hp : isAbsPath p = true) :
    cleanPath (cleanPath p) = cleanPath p := by
  have h1 : cleanPath p = '/' :: joinSep (resolveComps true (comps p)) := by
    simp [cleanPath, hp]
  have hmem : ∀ g ∈ resolveComps true (comps p),
      (g ≠ [] ∧ ∀ c ∈ g, (c == '/') = false) ∧ g ≠ ['.'] ∧ g ≠ ['.', '.'] := by
    intro g hg
    rcases mem_foldl_resolve_true (comps p) g [] hg with h | h
    · simp at h
    · exact ⟨comps_mem p g h.1, h.2⟩
  rw [h1]
  have habs : isAbsPath ('/' :: joinSep (resolveComps true (comps p))) = true := by
    simp [isAbsPath]
  simp only [cleanPath, habs, if_true]
  rw [comps_rooted_join (resolveComps true (comps p)) (fun g hg => (hmem g hg).1)]
  have hid : resolveComps true (resolveComps true (comps p)) = resolveComps true (comps p) := by
    show List.foldl (resolveStep true) [] (resolveComps true (comps p)) = _
    rw [foldl_resolve_true_nodots (resolveComps true (comps p)) (fun g hg => (hmem g hg).2) []]
    simp
  rw [hid]

theorem isAbsPath_cons_append (cwd x : Str) (hc : isAbsPath cwd = true) :
    isAbsPath (cwd ++ x) = true := by
  cases cwd with
  | nil => simp [isAbsPath] at hc
  | cons c t =>
    simp [isAbsPath] at hc ⊢
    exact hc

theorem goAbs_rooted (cwd p : Str) (hc : isAbsPath cwd = true) :
    isAbsPath (goAbs cwd p) = true := by
  unfold goAbs
  by_cases hp : isAbsPath p = true
  · simp only [hp, if_true]
    exact cleanPath_rooted p hp
  · simp only [hp, Bool.false_eq_true, if_false]
    exact cleanPath_rooted _ (isAbsPath_cons_append cwd ('/' :: p) hc)

theorem goAbs_clean_fix (cwd p : Str) (hc : isAbsPath cwd = true) :
    cleanPath (goAbs cwd p) = goAbs cwd p := by
  unfold goAbs
  by_cases hp : isAbsPath p = true
  · simp only [hp, if_true]
    exact cleanPath_idem_rooted p hp
  · simp only [hp, Bool.false_eq_true, if_false]
    exact cleanPath_idem_rooted _ (isAbsPath_cons_append cwd ('/' :: p) hc)

theorem mapDash_no_slash (s : Str) : ∀ c ∈ mapDash s, (c == '/') = false := by
  intro c hc
  simp only [mapDash, List.mem_map] at hc
  obtain ⟨a, _, rfl⟩ := hc
  by_cases ha : a = '/' <;> simp [ha]

theorem mapDash_inj (a b : Str) (ha : '-' ∉ a) (hb : '-' ∉ b)
    (h : mapDash a = mapDash b) : a = b := by
  induction a generalizing b with
  | nil =>
    cases b with
    | nil => rfl
    | cons y ys => simp [mapDash] at h
  | cons x xs ih =>
    cases b with
    | nil => simp [mapDash] at h
    | cons y ys =>
      simp only [mapDash, List.map_cons, List.cons.injEq] at h
      obtain ⟨h1, h2⟩ := h
      have hx : x ≠ '-' := fun hx => ha (hx ▸ List.mem_cons_self x xs)
      have hy : y ≠ '-' := fun hy => hb (hy ▸ List.mem_cons_self y ys)
      have hxs : '-' ∉ xs := fun hm => ha (List.mem_cons_of_mem x hm)
      have hys : '-' ∉ ys := fun hm => hb (List.mem_cons_of_mem y hm)
      have hxy : x = y := by
        by_cases hx' : x = '/' <;> by_cases hy' : y = '/' <;>
          simp [hx', hy'] at h1 ⊢
        · exact absurd h1.symm hy
        · exact absurd h1 hx
        · exact h1
      rw [hxy, ih ys hxs hys (by simpa [mapDash] using h2)]

theorem splitBy_cons_sep (f : Char → Bool) {c : Char} (hc : f c = true) (rest : Str) :
    splitBy f (c :: rest) = [] :: splitBy f rest := by
  simp [splitBy, hc]

theorem goJoin2_tmp (s : Str) (h1 : s ≠ []) (h2 : ∀ c ∈ s, (c == '/') = false)
    (h3 : s ≠ ['.']) (h4 : s ≠ ['.', '.']) :
    goJoin2 tmpDir s = "/tmp/".toList ++ s := by
  unfold goJoin2
  have hdec : tmpDir ++ '/' :: s = '/' :: (['t', 'm', 'p'] ++ '/' :: s) := rfl
  rw [hdec]
  have hcs : comps ('/' :: (['t', 'm', 'p'] ++ '/' :: s)) = [['t', 'm', 'p'], s] := by
    have hs : splitBy (fun c => c == '/') ('/' :: s) = [] :: [s] := by
      rw [splitBy_cons_sep (fun c => c == '/') (by decide) s, splitBy_sepfree _ s h2]
    have hg := splitBy_append_group (fun c => c == '/') ['t', 'm', 'p'] ('/' :: s)
      [] [s] (by decide) hs
    unfold comps tokensBy
    rw [splitBy_cons_sep (fun c => c == '/') (by decide) (['t', 'm', 'p'] ++ '/' :: s), hg]
    have hse : s.isEmpty = false := by
      cases s with
      | nil => exact absurd rfl h1
      | cons a t => rfl
    simp [List.filter, hse]
  have habs : isAbsPath ('/' :: (['t', 'm', 'p'] ++ '/' :: s)) = true := by
    simp [isAbsPath]
  unfold cleanPath
  rw [habs, if_pos rfl, hcs]
  have hres : resolveComps true [['t', 'm', 'p'], s] = [['t', 'm', 'p'], s] := by
    show List.foldl (resolveStep true) [] [['t', 'm', 'p'], s] = _
    rw [foldl_resolve_true_nodots [['t', 'm', 'p'], s] ?hh []]
    · simp
    · intro g hg
      rcases List.mem_cons.mp hg with rfl | hg2
      · exact ⟨by decide, by decide⟩
      · have : g = s := by simpa using hg2
        subst this
        exact ⟨h3, h4⟩
  rw [hres]
  rfl

theorem sockPath_shape (cwd p : Str) (hPa : isAbsPath p = true) (hPc : cleanPath p = p) :
    SocketPathForWorkspace cwd p =
      "/tmp/".toList ++ (mapDash (trimLeadSlash p) ++ sockSfx) := by
  have hA : goAbs cwd p = p := by
    unfold goAbs
    rw [hPa, if_pos rfl, hPc]
  show goJoin2 tmpDir (mapDash (trimLeadSlash (cleanPath (goAbs cwd p))) ++ sockSfx) = _
  rw [hA, hPc]
  apply goJoin2_tmp
  · intro h
    have := congrArg List.length h
    simp [sockSfx] at this
  · intro c hc
    rcases List.mem_append.mp hc with h | h
    · exact mapDash_no_slash _ c h
    · have hall : ∀ x ∈ sockSfx, (x == '/') = false := by decide
      exact hall c h
  · intro h
    have := congrArg List.length h
    simp [sockSfx] at this
  · intro h
    have := congrArg List.length h
    simp [sockSfx] at this

theorem socket_trailing_sep (cwd p : Str) (hp : p ≠ []) :
    SocketPathForWorkspace cwd (p ++ ['/']) = SocketPathForWorkspace cwd p := by
  show goJoin2 tmpDir (mapDash (trimLeadSlash (cleanPath (goAbs cwd (p ++ ['/'])))) ++ sockSfx) =
    goJoin2 tmpDir (mapDash (trimLeadSlash (cleanPath (goAbs cwd p))) ++ sockSfx)
  have hA : goAbs cwd (p ++ ['/']) = goAbs cwd p := by
    unfold goAbs
    rw [isAbsPath_append p ['/'] hp]
    by_cases h : isAbsPath p = true
    · simp only [h, if_true]
      exact cleanPath_append_slash p hp
    · rw [Bool.not_eq_true] at h
      simp only [h, Bool.false_eq_true, if_false]
      rw [show cwd ++ '/' :: (p ++ ['/']) = (cwd ++ '/' :: p) ++ ['/'] from by simp]
      exact cleanPath_append_slash _ (by simp)
  rw [hA]

theorem socket_absform (cwd p : Str) (hc : isAbsPath cwd = true) :
    SocketPathForWorkspace cwd (goAbs cwd p) = SocketPathForWorkspace cwd p := by
  have hCA : cleanPath (goAbs cwd p) = goAbs cwd p := goAbs_clean_fix cwd p hc
  have h2 : goAbs cwd (goAbs cwd p) = goAbs cwd p := by
    have hA : isAbsPath (goAbs cwd p) = true := goAbs_rooted cwd p hc
    set A := goAbs cwd p with hA'
    unfold goAbs
    rw [hA, if_pos rfl, hCA]
  show goJoin2 tmpDir (mapDash (trimLeadSlash (cleanPath (goAbs cwd (goAbs cwd p)))) ++ sockSfx) =
    goJoin2 tmpDir (mapDash (trimLeadSlash (cleanPath (goAbs cwd p))) ++ sockSfx)
  rw [h2]

/-- C9 counterexample: the claim quantifies over *every* workspace path,
but at the empty path `P = ""` appending a separator turns a relative path
into the root, and with working directory `/x` the derived socket paths
differ (empty slug vs slug `x`). -/
theorem C9_counterexample :
    SocketPathForWorkspace "/x".toList ("".toList ++ ['/']) ≠
      SocketPathForWorkspace "/x".toList "".toList := by
  decide

/-- C9 (amended to nonempty workspace paths, with the process working
directory absolute as the OS guarantees): `SocketPathForWorkspace` returns
the same socket path for `P`, for `P` with a trailing separator appended,
and for the cleaned absolute form of `P`. -/
theorem C9_socket_derivation_idempotent (cwd P : Str)
    (hcwd : isAbsPath cwd = true) (hP : P ≠ []) :
    SocketPathForWorkspace cwd (P ++ ['/']) = SocketPathForWorkspace cwd P ∧
    SocketPathForWorkspace cwd (goAbs cwd P) = SocketPathForWorkspace cwd P :=
  ⟨socket_trailing_sep cwd P hP, socket_absform cwd P hcwd⟩

/-- Witness for C9 at `cwd = /x`, `P = a`. -/
theorem C9_socket_derivation_idempotent_witness :
    isAbsPath "/x".toList = true ∧ "a".toList ≠ ([] : Str) ∧
    (SocketPathForWorkspace "/x".toList ("a".toList ++ ['/']) =
        SocketPathForWorkspace "/x".toList "a".toList ∧
      SocketPathForWorkspace "/x".toList (goAbs "/x".toList "a".toList) =
        SocketPathForWorkspace "/x".toList "a".toList) :=
  ⟨by decide, by decide,
    C9_socket_derivation_idempotent "/x".toList "a".toList (by decide) (by decide)⟩

/-- C1 counterexample: `/a/b` and `/a-b` are two distinct cleaned absolute
workspace paths whose derived socket paths coincide, because the slug maps
the separator to the dash already allowed in path components. -/
theorem C1_counterexample :
    isCleanAbs "/a/b".toList ∧ isCleanAbs "/a-b".toList ∧
    "/a/b".toList ≠ "/a-b".toList ∧
    SocketPathForWorkspace "/".toList "/a/b".toList =
      SocketPathForWorkspace "/".toList "/a-b".toList := by
  decide

/-- C1 (amended to dash-free paths): on cleaned absolute workspace paths
that contain no `-` character, the workspace-to-socket derivation is
injective. -/
theorem C1_socket_injective_dashfree (cwd P Q : Str) (hP : isCleanAbs P)
    (hQ : isCleanAbs Q) (hPd : '-' ∉ P) (hQd : '-' ∉ Q) (hne : P ≠ Q) :
    SocketPathForWorkspace cwd P ≠ SocketPathForWorkspace cwd Q := by
  obtain ⟨hPa, hPc⟩ := hP
  obtain ⟨hQa, hQc⟩ := hQ
  obtain ⟨tP, rfl⟩ : ∃ t, P = '/' :: t := by
    cases P with
    | nil => simp [isAbsPath] at hPa
    | cons c t =>
      simp [isAbsPath] at hPa
      exact ⟨t, by rw [hPa]⟩
  obtain ⟨tQ, rfl⟩ : ∃ t, Q = '/' :: t := by
    cases Q with
    | nil => simp [isAbsPath] at hQa
    | cons c t =>
      simp [isAbsPath] at hQa
      exact ⟨t, by rw [hQa]⟩
  rw [sockPath_shape cwd _ hPa hPc, sockPath_shape cwd _ hQa hQc]
  intro heq
  have h1 := List.append_cancel_left heq
  have h2 := List.append_cancel_right h1
  rw [show trimLeadSlash ('/' :: tP) = tP from rfl,
    show trimLeadSlash ('/' :: tQ) = tQ from rfl] at h2
  have h3 := mapDash_inj tP tQ (fun hm => hPd (List.mem_cons_of_mem _ hm))
    (fun hm => hQd (List.mem_cons_of_mem _ hm)) h2
  exact hne (by rw [h3])

/-- Witness for C1 at `/a/b` vs `/a/c`. -/
theorem C1_socket_injective_dashfree_witness :
    isCleanAbs "/a/b".toList ∧ isCleanAbs "/a/c".toList ∧
    SocketPathForWorkspace "/".toList "/a/b".toList ≠
      SocketPathForWorkspace "/".toList "/a/c".toList :=
  ⟨by decide, by decide,
    C1_socket_injective_dashfree "/".toList "/a/b".toList "/a/c".toList
      (by decide) (by decide) (by decide) (by decide) (by decide)⟩

theorem goHasPfx_iff (p : Str) : ∀ s : Str, goHasPfx p s = true ↔ p <+: s := by
  induction p with
  | nil => intro s; simp [goHasPfx]
  | cons c p ih =>
    intro s
    cases s with
    | nil => simp [goHasPfx]
    | cons d s' => simp [goHasPfx, List.cons_prefix_cons, ih s']

/-- C2 counterexample: on content with a leading space the code still
returns the ref path, although after trimming only trailing whitespace the
content does not begin with `ref: ` — so the claimed iff (and the claimed
empty result for such content) fails. -/
theorem C2_counterexample :
    ¬ refMarker <+: specTrimTrailing " ref: refs/heads/main".toList ∧
    parseGitHeadRef " ref: refs/heads/main".toList = "refs/heads/main".toList ∧
    "refs/heads/main".toList ≠ ([] : Str) := by
  decide

/-- C2 (amended: leading *and* trailing whitespace are trimmed, as
`strings.TrimSpace` does): `parseGitHeadRef` returns the remainder after
the `ref: ` prefix of the trimmed content exactly when the trimmed content
begins with that prefix, and the empty string otherwise (in particular for
detached-HEAD raw-hash content). -/
theorem C2_head_ref_rule (content : Str) :
    (refMarker <+: goTrimSpace content →
      parseGitHeadRef content = (goTrimSpace content).drop refMarker.length) ∧
    (¬ refMarker <+: goTrimSpace content → parseGitHeadRef content = []) := by
  constructor
  · intro h
    have hb : goHasPfx refMarker (goTrimSpace content) = true :=
      (goHasPfx_iff refMarker (goTrimSpace content)).mpr h
    simp [parseGitHeadRef, goTrimPfx, hb]
  · intro h
    cases hb : goHasPfx refMarker (goTrimSpace content) with
    | true => exact absurd ((goHasPfx_iff refMarker (goTrimSpace content)).mp hb) h
    | false => simp [parseGitHeadRef, hb]

/-- Witness for C2: a symbolic-ref HEAD file with a trailing newline parses
to its ref path, and a raw-hash (detached HEAD) file parses to empty. -/
theorem C2_head_ref_rule_witness :
    parseGitHeadRef "ref: refs/heads/x\n".toList = "refs/heads/x".toList ∧
    parseGitHeadRef "0123abc".toList = [] := by
  refine ⟨?_, ?_⟩
  · have h := (C2_head_ref_rule "ref: refs/heads/x\n".toList).1 (by decide)
    rw [h]
    decide
  · exact (C2_head_ref_rule "0123abc".toList).2 (by decide)

/-- C4: in the Watcher event loop, the sync debouncer is triggered for an
FS event exactly when the event name's basename is one of the ten
whitelisted route filenames and the op includes Create, Remove or Rename;
the listed near-miss basenames never trigger it, and a Write-only op never
triggers it on any name. -/
theorem C4_route_file_sync_trigger :
    (∀ (name : Str) (op : Nat),
      triggersSync name op = true ↔
        ((goBase name = "+page.ts".toList ∨ goBase name = "+page.js".toList ∨
          goBase name = "+page.server.ts".toList ∨ goBase name = "+page.server.js".toList ∨
          goBase name = "+layout.ts".toList ∨ goBase name = "+layout.js".toList ∨
          goBase name = "+layout.server.ts".toList ∨ goBase name = "+layout.server.js".toList ∨
          goBase name = "+server.ts".toList ∨ goBase name = "+server.js".toList) ∧
          (op &&& fsnotifyCreate ≠ 0 ∨ op &&& fsnotifyRemove ≠ 0 ∨
            op &&& fsnotifyRename ≠ 0))) ∧
    (∀ op, triggersSync "+page.svelte".toList op = false) ∧
    (∀ op, triggersSync "+pages.ts".toList op = false) ∧
    (∀ op, triggersSync "+pageserver.ts".toList op = false) ∧
    (∀ op, triggersSync "page.ts".toList op = false) ∧
    (∀ op, triggersSync "+page.d.ts".toList op = false) ∧
    (∀ op, triggersSync "+page.tsx".toList op = false) ∧
    (∀ name, triggersSync name fsnotifyWrite = false) := by
  refine ⟨?_, ?_, ?_, ?_, ?_, ?_, ?_, ?_⟩
  · intro name op
    simp [triggersSync, isRouteFile, svelteKitRouteFiles, opHas]
    tauto
  · intro op
    unfold triggersSync
    rw [show isRouteFile "+page.svelte".toList = false from by decide]
    simp
  · intro op
    unfold triggersSync
    rw [show isRouteFile "+pages.ts".toList = false from by decide]
    simp
  · intro op
    unfold triggersSync
    rw [show isRouteFile "+pageserver.ts".toList = false from by decide]
    simp
  · intro op
    unfold triggersSync
    rw [show isRouteFile "page.ts".toList = false from by decide]
    simp
  · intro op
    unfold triggersSync
    rw [show isRouteFile "+page.d.ts".toList = false from by decide]
    simp
  · intro op
    unfold triggersSync
    rw [show isRouteFile "+page.tsx".toList = false from by decide]
    simp
  · intro name
    simp [triggersSync, fsnotifyWrite, opHas, fsnotifyCreate, fsnotifyRemove, fsnotifyRename]
    intro _
    exact ⟨by decide, by decide⟩

/-- C5: for every snapshot returned by `runner.GetLatestEvent()` and every
requested format, the `/check` handler responds 500 exactly when the
snapshot's `errorCount` is positive and 200 otherwise, regardless of the
format. -/
theorem C5_check_status (e : SvelteWatchCheckComplete) (formatQuery : Str) :
    ((handleCheck e formatQuery).1 = 500 ↔ 0 < e.errorCount) ∧
    ((handleCheck e formatQuery).1 = 200 ↔ e.errorCount ≤ 0) := by
  by_cases h : 0 < e.errorCount
  · have hs : (handleCheck e formatQuery).1 = 500 := by simp [handleCheck, h]
    rw [hs]
    refine ⟨⟨fun _ => h, fun _ => rfl⟩, ⟨fun h2 => by omega, fun h2 => by omega⟩⟩
  · have hs : (handleCheck e formatQuery).1 = 200 := by simp [handleCheck, h]
    rw [hs]
    refine ⟨⟨fun h2 => by omega, fun h2 => absurd h2 h⟩, ⟨fun _ => by omega, fun _ => rfl⟩⟩

/-- C6: the Runner's event consumer treats `CheckStart` as invalidation,
`CheckComplete` as the only events that fill the snapshot cell, and
`Failure` as log-only, so from any starting cell state the cell after any
event stream holds exactly the most recent complete cycle — `none` when a
start is the most recent boundary, unchanged when no boundary occurred —
and never a failure. -/
theorem C6_snapshot_reflects_last_complete :
    (∀ s0 events, handleEvents s0 events = latestSnapshotSpec s0 events) ∧
    (∀ s ts ws, runnerStep s (.start ts ws) = none) ∧
    (∀ s c, runnerStep s (.complete c) = some c) ∧
    (∀ s ts m, runnerStep s (.failure ts m) = s) := by
  refine ⟨?_, fun _ _ _ => rfl, fun _ _ => rfl, fun _ _ _ => rfl⟩
  intro s0 events
  induction events generalizing s0 with
  | nil => rfl
  | cons e t ih =>
    rw [show handleEvents s0 (e :: t) = handleEvents (runnerStep s0 e) t from rfl, ih]
    cases hb : lastBoundary t with
    | some b => cases e <;> cases b <;> simp [latestSnapshotSpec, lastBoundary, hb]
    | none => cases e <;> simp [latestSnapshotSpec, lastBoundary, hb, runnerStep]

theorem foldl_append_flatten (f : Diagnostic → Str) (l : List Diagnostic) :
    ∀ acc : Str, l.foldl (fun sb d => sb ++ f d) acc = acc ++ (l.map f).flatten := by
  induction l with
  | nil => intro acc; simp
  | cons d t ih => intro acc; simp [ih]

/-- C7: `FormatHuman` renders exactly the human form the spec describes —
one line per diagnostic in insertion order as
`filename:line+1:character+1 - SEVERITY: message`, then a blank line and
the `svelte-check: E errors, W warnings (N files checked)` summary, with a
diagnostics-free snapshot rendered as the single no-issues line. -/
theorem C7_format_human (e : SvelteWatchCheckComplete) :
    FormatHuman e = humanRenderingSpec e := by
  unfold FormatHuman humanRenderingSpec
  by_cases h : e.diagnostics = []
  · simp [h]
  · have hlen : ¬e.diagnostics.length = 0 := by
      simpa [List.length_eq_zero] using h
    simp only [hlen, if_false, h]
    rw [foldl_append_flatten diagLine e.diagnostics []]
    have hsplit : ("\nsvelte-check: ".toList : Str) =
        "\n".toList ++ "svelte-check: ".toList := by decide
    simp [hsplit]

/-- C8: the global watcher counter is capped at 100 — `acquireWatcher`
fails with `ErrTooManyWatchers` whenever the counter is at or above the
limit, a successful acquire increments by one and the matching release
(performed once by `Close`) restores the prior value, and no sequence of
acquire/release operations can push a counter at or below the limit above
it. -/
theorem C8_watcher_cap :
    (∀ c : Int, MaxWatchers ≤ c → acquireWatcher c = .error .tooManyWatchers) ∧
    (∀ c : Int, c < MaxWatchers →
      acquireWatcher c = .ok (c + 1) ∧ releaseWatcher (c + 1) = c) ∧
    (∀ (ops : List WatchOp) (c0 : Int), c0 ≤ MaxWatchers →
      execOps c0 ops ≤ MaxWatchers) := by
  refine ⟨?_, ?_, ?_⟩
  · intro c h
    simp [acquireWatcher, h]
  · intro c h
    refine ⟨by simp [acquireWatcher, not_le.mpr h], by simp [releaseWatcher]⟩
  · intro ops
    induction ops with
    | nil =>
      intro c0 h
      simpa [execOps] using h
    | cons op t ih =>
      intro c0 h
      cases op with
      | acquire =>
        by_cases hc : MaxWatchers ≤ c0
        · rw [show execOps c0 (.acquire :: t) = execOps c0 t from by
            simp [execOps, acquireWatcher, hc]]
          exact ih c0 h
        · rw [show execOps c0 (.acquire :: t) = execOps (c0 + 1) t from by
            simp [execOps, acquireWatcher, hc]]
          exact ih (c0 + 1) (by omega)
      | release =>
        rw [show execOps c0 (.release :: t) = execOps (c0 - 1) t from rfl]
        exact ih (c0 - 1) (by omega)

/-- Witness for C8 at the limit, at 5, and on a concrete operation
sequence. -/
theorem C8_watcher_cap_witness :
    acquireWatcher 100 = .error .tooManyWatchers ∧
    (acquireWatcher 5 = .ok 6 ∧ releaseWatcher 6 = 5) ∧
    execOps 0 [.acquire, .acquire, .release] ≤ MaxWatchers := by
  refine ⟨C8_watcher_cap.1 100 (by decide), ?_,
    C8_watcher_cap.2.2 [.acquire, .acquire, .release] 0 (by decide)⟩
  have h := C8_watcher_cap.2.1 5 (by decide)
  simpa using h
theorem intSyntax_head {c : Char} {b : Str} (h : intSyntax (c :: b) = true) : c ≠ '#' := by
  intro hc
  subst hc
  simp [intSyntax] at h

theorem goParseInt64_wellFormed {s : Str} {v : Int} (h : goParseInt64 s = some v) :
    intSyntax s = true := by
  unfold goParseInt64 at h
  by_cases hc : intSyntax s = true ∧ int64Min ≤ intVal s ∧ intVal s ≤ int64Max
  · exact hc.1
  · rw [if_neg hc] at h
    exact absurd h (by simp)

theorem goCutChar_cons_ne {sep c : Char} {t : Str} (hc : (c == sep) = false) :
    goCutChar sep (c :: t) = (goCutChar sep t).map (fun p => (c :: p.1, p.2)) := by
  simp [goCutChar, hc]

theorem parseTs_inv {line : Str} {ts : Int} {rest : Str}
    (h : parseTimestampPfx line = some (ts, rest)) :
    ∃ b, goCutChar ' ' line = some (b, rest) ∧ goParseInt64 b = some ts := by
  unfold parseTimestampPfx at h
  cases hg : goCutChar ' ' line with
  | none =>
    rw [hg] at h
    exact absurd h (by simp)
  | some p =>
    obtain ⟨b, a⟩ := p
    rw [hg] at h
    have h2 : Option.map (fun ts => (ts, a)) (goParseInt64 b) = some (ts, rest) := h
    cases hp : goParseInt64 b with
    | none =>
      rw [hp] at h2
      exact absurd h2 (by simp)
    | some v =>
      rw [hp] at h2
      simp only [Option.map_some', Option.some.injEq, Prod.mk.injEq] at h2
      exact ⟨b, by rw [h2.2], by rw [hp, h2.1]⟩

theorem parseTs_not_skipped {line : Str} {ts : Int} {rest : Str}
    (h : parseTimestampPfx line = some (ts, rest)) :
    ¬(line = [] ∨ line.head? = some '#') := by
  obtain ⟨b, hg, hp⟩ := parseTs_inv h
  cases line with
  | nil => simp [goCutChar] at hg
  | cons c t =>
    rintro (h1 | h2)
    · exact List.noConfusion h1
    · have hc : c = '#' := by simpa using h2
      subst hc
      rw [goCutChar_cons_ne (by decide)] at hg
      cases hq : goCutChar ' ' t with
      | none =>
        rw [hq] at hg
        simp at hg
      | some q =>
        rw [hq] at hg
        simp only [Option.map_some', Option.some.injEq, Prod.mk.injEq] at hg
        have hb : b = '#' :: q.1 := hg.1.symm
        subst hb
        exact absurd rfl (intSyntax_head (goParseInt64_wellFormed hp))

theorem classify_completed (decode : Str → Option Diagnostic) {line : Str} {ts : Int}
    {rest : Str} (hp : parseTimestampPfx line = some (ts, rest))
    (hc : goHasPfx completedTok rest = true) :
    classifyLine decode line =
      .completedLn (parseCompletedLine rest).1 (parseCompletedLine rest).2.1
        (parseCompletedLine rest).2.2.1 (parseCompletedLine rest).2.2.2 ts := by
  have hns := parseTs_not_skipped hp
  obtain ⟨t, rfl⟩ : ∃ t, rest = completedTok ++ t := by
    obtain ⟨t, ht⟩ := (goHasPfx_iff completedTok rest).mp hc
    exact ⟨t, ht.symm⟩
  have hcut : goCutPfx startTok (completedTok ++ t) = none := by
    simp [goCutPfx, show goHasPfx startTok (completedTok ++ t) = false from rfl]
  unfold classifyLine
  rw [if_neg hns]
  simp only [hp, hcut, hc, if_true]

/-- C10: a line with a timestamp whose remainder begins with `COMPLETED `
always emits a complete event carrying the current accumulator and resets
the accumulator, even with a malformed tail — fewer than nine fields yield
four zero counts, a syntactically invalid count field yields zero for that
count, and the keyword fields are never inspected (two remainders with the
same four count fields parse identically). -/
theorem C10_completed_lenient (decode : Str → Option Diagnostic) (line rest : Str)
    (ts : Int) (lines : List Str) (acc : List Diagnostic)
    (hp : parseTimestampPfx line = some (ts, rest))
    (hc : goHasPfx completedTok rest = true) :
    interpretLines decode (line :: lines) acc =
      .complete ⟨ts, acc, (parseCompletedLine rest).1, (parseCompletedLine rest).2.1,
        (parseCompletedLine rest).2.2.1, (parseCompletedLine rest).2.2.2⟩ ::
        interpretLines decode lines [] ∧
    ((goFields rest).length < 9 → parseCompletedLine rest = (0, 0, 0, 0)) ∧
    (9 ≤ (goFields rest).length →
      (intSyntax ((goFields rest).getD 1 []) = false → (parseCompletedLine rest).1 = 0) ∧
      (intSyntax ((goFields rest).getD 3 []) = false → (parseCompletedLine rest).2.1 = 0) ∧
      (intSyntax ((goFields rest).getD 5 []) = false →
        (parseCompletedLine rest).2.2.1 = 0) ∧
      (intSyntax ((goFields rest).getD 7 []) = false →
        (parseCompletedLine rest).2.2.2 = 0)) ∧
    (∀ rest2 : Str, 9 ≤ (goFields rest).length → 9 ≤ (goFields rest2).length →
      (goFields rest).getD 1 [] = (goFields rest2).getD 1 [] →
      (goFields rest).getD 3 [] = (goFields rest2).getD 3 [] →
      (goFields rest).getD 5 [] = (goFields rest2).getD 5 [] →
      (goFields rest).getD 7 [] = (goFields rest2).getD 7 [] →
      parseCompletedLine rest = parseCompletedLine rest2) := by
  refine ⟨?_, ?_, ?_, ?_⟩
  · simp [interpretLines, classify_completed decode hp hc]
  · intro hlen
    simp only [parseCompletedLine]
    rw [if_neg (by omega)]
  · intro hlen
    refine ⟨?_, ?_, ?_, ?_⟩ <;> intro hint <;>
      simp only [List.getD, List.get?_eq_getElem?] at hint <;>
      simp [parseCompletedLine, hlen, goAtoi, List.getD, hint]
  · intro rest2 h1 h2 e1 e3 e5 e7
    simp only [parseCompletedLine]
    rw [if_pos h1, if_pos h2, e1, e3, e5, e7]

/-- Witness for C10 on the malformed line `7 COMPLETED x`. -/
theorem C10_completed_lenient_witness :
    interpretLines (fun _ => none) ["7 COMPLETED x".toList] [] =
      [.complete ⟨7, [], 0, 0, 0, 0⟩] ∧
    parseCompletedLine "COMPLETED x".toList = (0, 0, 0, 0) := by
  have h := C10_completed_lenient (fun _ => none) "7 COMPLETED x".toList
    "COMPLETED x".toList 7 [] [] (by decide) (by decide)
  refine ⟨?_, h.2.1 (by decide)⟩
  rw [h.1]
  decide

theorem interpret_body (decode : Str → Option Diagnostic) (body : List Str)
    (h : ∀ l ∈ body, classifyLine decode l = .skip ∨
      (∃ d, classifyLine decode l = .diagLn d) ∨
      (∃ ts m, classifyLine decode l = .failureLn ts m)) :
    ∀ (rest : List Str) (acc : List Diagnostic),
      interpretLines decode (body ++ rest) acc =
        cycleFailures decode body ++
          interpretLines decode rest (acc ++ cycleDiags decode body) := by
  induction body with
  | nil =>
    intro rest acc
    simp [cycleFailures, cycleDiags]
  | cons l t ih =>
    intro rest acc
    have ht := ih (fun x hx => h x (List.mem_cons_of_mem l hx))
    rcases h l (List.mem_cons_self l t) with hl | ⟨d, hl⟩ | ⟨ts, m, hl⟩
    · simp [interpretLines, hl, cycleFailures, cycleDiags, ht]
    · simp [interpretLines, hl, cycleFailures, cycleDiags, ht]
    · simp [interpretLines, hl, cycleFailures, cycleDiags, ht]

/-- C3: for a cycle of the form `START`-line, body lines that are only
diagnostics, skipped noise or failures, then a `COMPLETED`-line, the
interpreter emits the start event and then a complete event carrying
exactly the body's diagnostics in line order — whatever the accumulator
held before the `START` is discarded, and the accumulator is reset again
at the `COMPLETED` before the remaining lines are processed. -/
theorem C3_cycle_integrity (decode : Str → Option Diagnostic) (sLine cLine : Str)
    (body rest : List Str) (acc : List Diagnostic) (ts tc fc ec wc fwp : Int)
    (ws : Str)
    (hstart : classifyLine decode sLine = .startLn ts ws)
    (hbody : ∀ l ∈ body, classifyLine decode l = .skip ∨
      (∃ d, classifyLine decode l = .diagLn d) ∨
      (∃ ts2 m, classifyLine decode l = .failureLn ts2 m))
    (hcomp : classifyLine decode cLine = .completedLn fc ec wc fwp tc) :
    interpretLines decode (sLine :: (body ++ cLine :: rest)) acc =
      .start ts ws ::
        (cycleFailures decode body ++
          .complete ⟨tc, cycleDiags decode body, fc, ec, wc, fwp⟩ ::
            interpretLines decode rest []) := by
  simp only [interpretLines, hstart]
  rw [interpret_body decode body hbody (cLine :: rest) []]
  simp [interpretLines, hcomp]

/-- Witness for C3: one cycle with one diagnostic line between `START` and
`COMPLETED`, starting from an empty accumulator. -/
theorem C3_cycle_integrity_witness :
    interpretLines
      (fun _ => some ⟨0, "ERROR".toList, "a.ts".toList, ⟨0, 0⟩, ⟨0, 1⟩,
        "m".toList, .num 1, "ts".toList⟩)
      ["1 START \"/ws\"".toList, "5 {}".toList,
        "9 COMPLETED 3 FILES 1 ERRORS 0 WARNINGS 1 FILES_WITH_PROBLEMS".toList] [] =
      [.start 1 "/ws".toList,
        .complete ⟨9, [⟨5, "ERROR".toList, "a.ts".toList, ⟨0, 0⟩, ⟨0, 1⟩,
          "m".toList, .num 1, "ts".toList⟩], 3, 1, 0, 1⟩] := by
  have h := C3_cycle_integrity
    (fun _ => some ⟨0, "ERROR".toList, "a.ts".toList, ⟨0, 0⟩, ⟨0, 1⟩,
      "m".toList, .num 1, "ts".toList⟩)
    "1 START \"/ws\"".toList
    "9 COMPLETED 3 FILES 1 ERRORS 0 WARNINGS 1 FILES_WITH_PROBLEMS".toList
    ["5 {}".toList] [] [] 1 9 3 1 0 1 "/ws".toList
    (by decide)
    (by
      intro l hl
      have : l = "5 {}".toList := by simpa using hl
      subst this
      right
      left
      exact ⟨⟨5, "ERROR".toList, "a.ts".toList, ⟨0, 0⟩, ⟨0, 1⟩,
        "m".toList, .num 1, "ts".toList⟩, by decide⟩)
    (by decide)
  rw [show ("1 START \"/ws\"".toList :: (["5 {}".toList] ++
      "9 COMPLETED 3 FILES 1 ERRORS 0 WARNINGS 1 FILES_WITH_PROBLEMS".toList :: [])) =
      ["1 START \"/ws\"".toList, "5 {}".toList,
        "9 COMPLETED 3 FILES 1 ERRORS 0 WARNINGS 1 FILES_WITH_PROBLEMS".toList]
    from rfl] at h
  rw [h]
  decide
